import Mathlib

/-!
Verification development for the `valkey-go` repository: a shallow embedding
of the `valkeyprob` probabilistic filters (Bloom filter and counting Bloom
filter over a remote store) and of the cross-slot MGET example's
verification routine, together with theorems settling the specification's
claims about them.

The `valkeyprob` implementation itself is not present in the tree (only its
README and examples are), so its data model and operations are modelled from
the design specification; each such definition carries a doc comment saying
so.  The `verifyData` routine of the cross-slot MGET example is translated
directly from its Go source.
-/

set_option autoImplicit false

/-- Modelled from the spec: the error taxonomy of §7 (`ConfigError`,
`EncodingError`, `StoreError`, `UnderflowError`, `ConsistencyError`).
The implementation is not in the tree. -/
inductive ProbError : Type where
  | configError
  | encodingError
  | storeError
  | underflowError
  | consistencyError
  deriving DecidableEq, Repr

/-- Modelled from the spec: §4.2 Position Generator.  Given the two 64-bit
hashes `h1, h2` of the serialized element (the hash family itself is the
spec's §9 open question, so the hashes are taken as inputs), derives the
`k` double-hashing positions `(h1 + i*h2) mod m`, substituting
`h2 := h2 + 1` when `h2 mod m = 0`. -/
def positions (h1 h2 m k : ℕ) : List ℕ :=
  let h2x := if h2 % m = 0 then h2 + 1 else h2
  (List.range k).map fun i => (h1 + i * h2x) % m

/-- Modelled from the spec: §3 ElementDigest — two 64-bit hash values of the
serialized element, recomputed on every call.  The concrete hash family is
unspecified (§9), so the model abstracts it as a function `digest`. -/
def elemPos {α : Type} (digest : α → ℕ × ℕ) (m k : ℕ) (x : α) : List ℕ :=
  positions (digest x).1 (digest x).2 m k

/-- Modelled from the spec: §3 FilterState of the plain variant — an `m`-bit
array living in the remote store, addressed by the filter's name.  Absence
of a bit is `false` (a missing key is an empty filter). -/
structure BState : Type where
  bits : ℕ → Bool

/-- Modelled from the spec: the empty (never-written) plain filter state. -/
def emptyB : BState := ⟨fun _ => false⟩

/-- Modelled from the spec: §4.3 Bit Store Adapter `Add` — atomically sets
all `k` bits of the position set. -/
def bfAdd (ps : List ℕ) (s : BState) : BState :=
  ⟨fun q => s.bits q || decide (q ∈ ps)⟩

/-- Modelled from the spec: §4.3 Bit Store Adapter `Exists` — reads all `k`
bits and returns true iff all are set. -/
def bfExists (ps : List ℕ) (s : BState) : Bool :=
  ps.all fun p => s.bits p

/-- Modelled from the spec: §3 FilterState of the counting variant — `m`
integer counters plus one aggregate `total` counter, all in the remote
store.  Position counters never go below zero (Remove is guarded), so they
are naturals; `total` is a store integer and is modelled as `ℤ`. -/
structure CState : Type where
  counters : ℕ → ℕ
  total : ℤ

/-- Modelled from the spec: the empty counting filter state. -/
def emptyC : CState := ⟨fun _ => 0, 0⟩

/-- Modelled from the spec: §4.4 Counting Store Adapter `Add` — atomically
increments the counter at each position of the position set by 1 and the
aggregate `total` by 1. -/
def cbfAdd (ps : List ℕ) (s : CState) : CState :=
  ⟨fun q => if q ∈ ps then s.counters q + 1 else s.counters q, s.total + 1⟩

/-- Modelled from the spec: §4.4 Counting Store Adapter `Exists` — true iff
every one of the position counters is greater than zero. -/
def cbfExists (ps : List ℕ) (s : CState) : Bool :=
  ps.all fun p => decide (0 < s.counters p)

/-- Modelled from the spec: §4.4 Counting Store Adapter `Remove` — if any
position counter is already zero the whole operation is rejected with
`UnderflowError` (no partial decrement); otherwise every position counter is
decremented by 1 and `total` by 1, atomically. -/
def cbfRemove (ps : List ℕ) (s : CState) : Except ProbError CState :=
  if cbfExists ps s then
    .ok ⟨fun q => if q ∈ ps then s.counters q - 1 else s.counters q, s.total - 1⟩
  else
    .error .underflowError

/-- Modelled from the spec: §4.4 `Count` — returns the aggregate `total`. -/
def cbfCount (s : CState) : ℤ := s.total

/-- Modelled from the spec: the mutating operations a client can issue on a
counting filter (facade level, §4.5): `Add` and `Remove` of an element. -/
inductive COp (α : Type) : Type where
  | add : α → COp α
  | remove : α → COp α

/-- Modelled from the spec: one facade-level operation applied to the shared
remote state.  A rejected Remove (underflow) leaves the state unchanged —
the operation is atomic, all-or-nothing (§4.4, §5). -/
def countingStep {α : Type} (digest : α → ℕ × ℕ) (m k : ℕ) (op : COp α) (s : CState) : CState :=
  match op with
  | .add x => cbfAdd (elemPos digest m k x) s
  | .remove x =>
    match cbfRemove (elemPos digest m k x) s with
    | .ok s2 => s2
    | .error _ => s

/-- Modelled from the spec: a sequence of facade-level operations applied in
order; by §5 every operation is a single atomic batch, so any concurrent
execution is equivalent to some such sequential order. -/
def countingRun {α : Type} (digest : α → ℕ × ℕ) (m k : ℕ) (s : CState) : List (COp α) → CState
  | [] => s
  | op :: ops => countingRun digest m k (countingStep digest m k op s) ops

/-- True when no Remove in the operation list succeeds when run from `s`
(every Remove, if any, is rejected with an underflow). -/
def noSuccRemove {α : Type} (digest : α → ℕ × ℕ) (m k : ℕ) (s : CState) : List (COp α) → Bool
  | [] => true
  | op :: ops =>
    match op with
    | .add _ => noSuccRemove digest m k (countingStep digest m k op s) ops
    | .remove x =>
      match cbfRemove (elemPos digest m k x) s with
      | .ok _ => false
      | .error _ => noSuccRemove digest m k s ops

/-- Number of Add operations in an operation list. -/
def numAdds {α : Type} : List (COp α) → ℕ
  | [] => 0
  | .add _ :: ops => numAdds ops + 1
  | .remove _ :: ops => numAdds ops

/-- Number of Remove operations that succeed when the list is run from `s`. -/
def numSuccRemoves {α : Type} (digest : α → ℕ × ℕ) (m k : ℕ) (s : CState) : List (COp α) → ℕ
  | [] => 0
  | op :: ops =>
    (match op with
     | .add _ => 0
     | .remove x =>
       match cbfRemove (elemPos digest m k x) s with
       | .ok _ => 1
       | .error _ => 0)
    + numSuccRemoves digest m k (countingStep digest m k op s) ops

/-- Modelled from the spec: a sequence of plain-variant facade operations —
the plain variant supports only `Add` (§4.3: no Remove/Count). -/
def plainRun {α : Type} (digest : α → ℕ × ℕ) (m k : ℕ) (s : BState) : List α → BState
  | [] => s
  | x :: xs => plainRun digest m k (bfAdd (elemPos digest m k x) s) xs

/-- Whether an `Except` result is a success. -/
def isOkE {ε σ : Type} : Except ε σ → Bool
  | .ok _ => true
  | .error _ => false

/-- Modelled from the spec: §4.1 Parameter Planner bit count
`m = ceil(-n*ln(p) / (ln 2)^2)`. -/
noncomputable def plannedM (n : ℤ) (p : ℝ) : ℤ :=
  ⌈(-(n : ℝ) * Real.log p) / (Real.log 2) ^ 2⌉

/-- Modelled from the spec: §4.1 Parameter Planner hash count
`k = max(1, round((m/n)*ln 2))`. -/
noncomputable def plannedK (n : ℤ) (p : ℝ) : ℤ :=
  max 1 (round (((plannedM n p : ℤ) : ℝ) / (n : ℝ) * Real.log 2))

open Classical in
/-- Modelled from the spec: §4.1 Parameter Planner — fails with
`ConfigError` if `n <= 0` or `p` outside `(0,1)`, otherwise returns the
derived sizing `(m, k)`.  Pure and deterministic. -/
noncomputable def planner (n : ℤ) (p : ℝ) : Except ProbError (ℤ × ℤ) :=
  if n ≤ 0 ∨ p ≤ 0 ∨ 1 ≤ p then .error .configError
  else .ok (plannedM n p, plannedK n p)

/-- Modelled from the spec: construction of a named filter (§4.5, §7,
`NewBloomFilter` / `NewCountingBloomFilter` sizing logic).  `persisted` is
the sizing already stored under the filter's name, if any; a mismatch with
the freshly derived sizing is a fatal `ConsistencyError` that aborts
construction. -/
noncomputable def newFilter (persisted : Option (ℤ × ℤ)) (n : ℤ) (p : ℝ) :
    Except ProbError (ℤ × ℤ) :=
  match planner n p with
  | .error e => .error e
  | .ok derived =>
    match persisted with
    | none => .ok derived
    | some stored => if stored = derived then .ok derived else .error .consistencyError

/-- A concrete digest used for concrete executions: elements 0 and 1 are
two distinct elements whose position sets under `(m,k) = (4,2)` coincide as
sets (`[0,1]` and `[1,0]`). -/
def exD : ℕ → ℕ × ℕ := fun n => if n = 0 then (0, 1) else (1, 3)

/-- A second concrete digest whose elements 0 and 1 have disjoint position
sets under `(m,k) = (4,2)` (`[0,1]` and `[2,3]`). -/
def exD2 : ℕ → ℕ × ℕ := fun n => if n = 0 then (0, 1) else (2, 1)

/- ------------------------------------------------------------------ -/
/- The cross-slot MGET example (examples/xslot-mget), from the source. -/
/- ------------------------------------------------------------------ -/

/-- From the source: the marker string the example stores for a nil MGET
result. -/
def NilValueString : String := "(nil)"

/-- From the source: the marker string the example stores for a value that
could not be fetched or parsed. -/
def ErrorValueString : String := "<error_val>"

/-- Go-map lookup, modelled on an association list with the map's key
uniqueness: the value the map holds for `key`, if present. -/
def lookupKV (kvs : List (String × String)) (key : String) : Option String :=
  (kvs.find? fun kv => kv.1 == key).map (fun kv => kv.2)

/-- The classification `verifyData` gives one expected key: the branch of
its per-key if/else chain that fires. -/
inductive KeyVerdict : Type where
  | missingKey
  | nilValue
  | errorValue
  | mismatch
  | matched
  deriving DecidableEq, Repr

/-- From the source (`verifyData`, per-key body): not found in the MGET
results → missing; found but `"(nil)"` → nil-instead-of-value (also counted
as a mismatch); found but `"<error_val>"` → retrieval error; found but a
different value → data mismatch; otherwise the key verifies. -/
def keyVerdict (actualKVs : List (String × String)) (expectedKey expectedValue : String) :
    KeyVerdict :=
  match lookupKV actualKVs expectedKey with
  | none => .missingKey
  | some actualValue =>
    if actualValue = NilValueString then .nilValue
    else if actualValue = ErrorValueString then .errorValue
    else if actualValue ≠ expectedValue then .mismatch
    else .matched

/-- From the source: the `mismatches` counter — incremented both when a
non-nil value differs and when `"(nil)"` came back in place of a value. -/
def mismatches (expectedKVs actualKVs : List (String × String)) : ℕ :=
  expectedKVs.countP fun kv =>
    decide (keyVerdict actualKVs kv.1 kv.2 = .nilValue ∨
            keyVerdict actualKVs kv.1 kv.2 = .mismatch)

/-- From the source: the `missingInActual` counter. -/
def missingInActual (expectedKVs actualKVs : List (String × String)) : ℕ :=
  expectedKVs.countP fun kv => decide (keyVerdict actualKVs kv.1 kv.2 = .missingKey)

/-- From the source: the `nilInsteadOfValue` counter. -/
def nilInsteadOfValue (expectedKVs actualKVs : List (String × String)) : ℕ :=
  expectedKVs.countP fun kv => decide (keyVerdict actualKVs kv.1 kv.2 = .nilValue)

/-- From the source: the `errorRetrievingValue` counter. -/
def errorRetrievingValue (expectedKVs actualKVs : List (String × String)) : ℕ :=
  expectedKVs.countP fun kv => decide (keyVerdict actualKVs kv.1 kv.2 = .errorValue)

/-- From the source: the `extraInActual` counter — keys fetched by MGET that
were not in the expected set. -/
def extraInActual (expectedKVs actualKVs : List (String × String)) : ℕ :=
  actualKVs.countP fun kv => decide (lookupKV expectedKVs kv.1 = none)

/-- From the source: `verifyData` returns normally printing VERIFY PASS iff
all five failure counters are zero; otherwise it prints a summary and calls
`os.Exit(1)`.  `true` models the normal (PASS) return. -/
def verifyData (expectedKVs actualKVs : List (String × String)) : Bool :=
  mismatches expectedKVs actualKVs == 0 &&
  missingInActual expectedKVs actualKVs == 0 &&
  nilInsteadOfValue expectedKVs actualKVs == 0 &&
  errorRetrievingValue expectedKVs actualKVs == 0 &&
  extraInActual expectedKVs actualKVs == 0

/- ------------------------------------------------------------------ -/
/- Theorems.                                                           -/
/- ------------------------------------------------------------------ -/

theorem bfExists_bfAdd_self (ps : List ℕ) (s : BState) :
    bfExists ps (bfAdd ps s) = true := by
  simp only [bfExists, bfAdd, List.all_eq_true, Bool.or_eq_true, decide_eq_true_eq]
  exact fun p hp => Or.inr hp

theorem bfExists_mono (ps : List ℕ) (s t : BState)
    (h : ∀ q, s.bits q = true → t.bits q = true)
    (hs : bfExists ps s = true) : bfExists ps t = true := by
  simp only [bfExists, List.all_eq_true] at hs ⊢
  exact fun p hp => h p (hs p hp)

theorem plainRun_preserves {α : Type} (digest : α → ℕ × ℕ) (m k : ℕ) (ps : List ℕ)
    (xs : List α) (s : BState) (hs : bfExists ps s = true) :
    bfExists ps (plainRun digest m k s xs) = true := by
  induction xs generalizing s with
  | nil => exact hs
  | cons y ys ih =>
    exact ih _ (bfExists_mono ps s _ (fun q hq => by simp [bfAdd, hq]) hs)

theorem cbfExists_cbfAdd_self (ps : List ℕ) (s : CState) :
    cbfExists ps (cbfAdd ps s) = true := by
  simp only [cbfExists, cbfAdd, List.all_eq_true, decide_eq_true_eq]
  intro p hp
  simp only [if_pos hp]
  omega

theorem cbfExists_mono (ps : List ℕ) (s t : CState)
    (h : ∀ q, s.counters q ≤ t.counters q)
    (hs : cbfExists ps s = true) : cbfExists ps t = true := by
  simp only [cbfExists, List.all_eq_true, decide_eq_true_eq] at hs ⊢
  exact fun p hp => lt_of_lt_of_le (hs p hp) (h p)

theorem cbfAdd_counters_le (qs : List ℕ) (s : CState) (q : ℕ) :
    s.counters q ≤ (cbfAdd qs s).counters q := by
  simp only [cbfAdd]
  split <;> omega

theorem countingStep_remove_of_err {α : Type} (digest : α → ℕ × ℕ) (m k : ℕ) (x : α)
    (s : CState) (e : ProbError) (h : cbfRemove (elemPos digest m k x) s = .error e) :
    countingStep digest m k (.remove x) s = s := by
  simp [countingStep, h]

theorem countingRun_preserves {α : Type} (digest : α → ℕ × ℕ) (m k : ℕ) (ps : List ℕ)
    (ops : List (COp α)) (s : CState)
    (hns : noSuccRemove digest m k s ops = true)
    (hs : cbfExists ps s = true) :
    cbfExists ps (countingRun digest m k s ops) = true := by
  induction ops generalizing s with
  | nil => exact hs
  | cons op ops ih =>
    cases op with
    | add x =>
      simp only [noSuccRemove] at hns
      exact ih _ hns (cbfExists_mono ps s _ (cbfAdd_counters_le _ s) hs)
    | remove x =>
      simp only [noSuccRemove] at hns
      cases hrem : cbfRemove (elemPos digest m k x) s with
      | ok s2 =>
        simp only [hrem] at hns
        exact (Bool.false_ne_true hns).elim
      | error e =>
        simp only [hrem] at hns
        rw [countingRun, countingStep_remove_of_err digest m k x s e hrem]
        exact ih s hns hs

theorem bfAdd_noop (ps : List ℕ) (t : BState) (h : bfExists ps t = true) :
    bfAdd ps t = t := by
  cases t with
  | mk bits =>
    simp only [bfExists, List.all_eq_true] at h
    simp only [bfAdd, BState.mk.injEq]
    funext q
    by_cases hq : q ∈ ps
    · simp [hq, h q hq]
    · simp [hq]

/-- Claim C2: for every input and every `(m, k)` with `m > 0`, the Position
Generator substitutes `h2 := h2 + 1` whenever `h2 mod m = 0` and returns
exactly the `k` positions `(h1 + i*h2) mod m` for `i = 0..k-1`, each in
`[0, m)`, and identical inputs with identical `(m, k)` give the identical
position set. -/
theorem positions_spec (h1 h2 m k : ℕ) (hm : 0 < m) :
    (positions h1 h2 m k).length = k ∧
    (∀ i, i < k →
      (positions h1 h2 m k).getD i 0 =
        (h1 + i * (if h2 % m = 0 then h2 + 1 else h2)) % m) ∧
    (∀ p ∈ positions h1 h2 m k, p < m) ∧
    (∀ g1 g2 mx kx, g1 = h1 → g2 = h2 → mx = m → kx = k →
      positions g1 g2 mx kx = positions h1 h2 m k) := by
  refine ⟨by simp [positions], ?_, ?_, ?_⟩
  · intro i hi
    simp [positions, List.getD_eq_getElem?_getD, List.getElem?_map,
      List.getElem?_range hi]
  · intro p hp
    simp only [positions, List.mem_map, List.mem_range] at hp
    obtain ⟨i, _, rfl⟩ := hp
    exact Nat.mod_lt _ hm
  · intro g1 g2 mx kx e1 e2 e3 e4
    rw [e1, e2, e3, e4]

/-- Witness for C2 at `h1 = 3`, `h2 = 10`, `m = 5`, `k = 4` (a case where
the `h2 mod m = 0` substitution fires). -/
theorem positions_spec_witness :
    0 < 5 ∧
    ((positions 3 10 5 4).length = 4 ∧
     (∀ i, i < 4 →
       (positions 3 10 5 4).getD i 0 =
         (3 + i * (if 10 % 5 = 0 then 10 + 1 else 10)) % 5) ∧
     (∀ p ∈ positions 3 10 5 4, p < 5) ∧
     (∀ g1 g2 mx kx, g1 = 3 → g2 = 10 → mx = 5 → kx = 4 →
       positions g1 g2 mx kx = positions 3 10 5 4)) :=
  ⟨by decide, positions_spec 3 10 5 4 (by decide)⟩

/-- Claim C6: on the plain variant Add is idempotent — `Add(x); Add(x)`
yields the same stored bit array as a single `Add(x)`, and re-running
`Add(x)` at any later point (after further Adds, the only mutating plain
operation) is a no-op. -/
theorem plain_add_idempotent {α : Type} (digest : α → ℕ × ℕ) (m k : ℕ) (x : α) (s : BState) :
    bfAdd (elemPos digest m k x) (bfAdd (elemPos digest m k x) s) =
      bfAdd (elemPos digest m k x) s ∧
    (∀ later : List α,
      bfAdd (elemPos digest m k x)
          (plainRun digest m k (bfAdd (elemPos digest m k x) s) later) =
        plainRun digest m k (bfAdd (elemPos digest m k x) s) later) := by
  constructor
  · exact bfAdd_noop _ _ (bfExists_bfAdd_self _ s)
  · intro later
    exact bfAdd_noop _ _
      (plainRun_preserves digest m k _ later _ (bfExists_bfAdd_self _ s))

/-- Claim C7: on the counting variant, `Add(x)` immediately followed by
`Remove(x)` succeeds and restores the entire filter state — every position
counter and the total — exactly, hence restores `Exists(x)` to its pre-Add
value.  In this sequential round trip the restoration is exact, so no
assumption about other elements' positions is needed. -/
theorem counting_roundtrip {α : Type} (digest : α → ℕ × ℕ) (m k : ℕ) (x : α) (s : CState) :
    cbfRemove (elemPos digest m k x) (cbfAdd (elemPos digest m k x) s) = .ok s ∧
    countingRun digest m k s [COp.add x, COp.remove x] = s ∧
    cbfExists (elemPos digest m k x)
        (countingRun digest m k s [COp.add x, COp.remove x]) =
      cbfExists (elemPos digest m k x) s := by
  have hok : cbfRemove (elemPos digest m k x) (cbfAdd (elemPos digest m k x) s) = .ok s := by
    have hex := cbfExists_cbfAdd_self (elemPos digest m k x) s
    cases s with
    | mk c t =>
      unfold cbfRemove
      rw [if_pos hex]
      simp only [cbfAdd, Except.ok.injEq, CState.mk.injEq]
      constructor
      · funext q
        by_cases hq : q ∈ elemPos digest m k x <;> simp [hq]
      · ring
  have hrun : countingRun digest m k s [COp.add x, COp.remove x] = s := by
    simp [countingRun, countingStep, hok]
  exact ⟨hok, hrun, by rw [hrun]⟩

/-- Counterexample to claim C1 as stated: under digest `exD` with
`(m, k) = (4, 2)`, elements 0 and 1 are distinct but share the same
position set.  After `Add(0)` succeeds, an intervening `Remove(1)` — which
succeeds, so in particular no failed Remove and no `Remove(0)` of any kind
intervenes — makes the subsequent `Exists(0)` return false on the counting
variant. -/
theorem no_false_negatives_cx :
    isOkE (cbfRemove (elemPos exD 4 2 1) (cbfAdd (elemPos exD 4 2 0) emptyC)) = true ∧
    ([COp.remove (1 : ℕ)].all fun op =>
      match op with
      | .remove z => decide (z ≠ 0)
      | .add _ => true) = true ∧
    cbfExists (elemPos exD 4 2 0)
      (countingRun exD 4 2 (cbfAdd (elemPos exD 4 2 0) emptyC) [COp.remove 1]) = false := by
  decide

/-- Claim C1 (amended): no false negatives.  On the plain variant, after a
successful `Add(x)` every subsequent `Exists(x)` returns true, whatever
further Adds intervene (Add is the only mutating plain operation).  On the
counting variant the same holds provided no intervening Remove succeeds —
a successful Remove, of `x` or of another element sharing `x`'s positions,
can clear a counter.  The facade holds no client-side state, so a freshly
constructed handle for the same name evaluates `Exists` as the same pure
function of the same shared store state. -/
theorem no_false_negatives {α : Type} (digest : α → ℕ × ℕ) (m k : ℕ) (x : α) :
    (∀ (s : BState) (later : List α),
      bfExists (elemPos digest m k x)
        (plainRun digest m k (bfAdd (elemPos digest m k x) s) later) = true) ∧
    (∀ (s : CState) (later : List (COp α)),
      noSuccRemove digest m k (cbfAdd (elemPos digest m k x) s) later = true →
      cbfExists (elemPos digest m k x)
        (countingRun digest m k (cbfAdd (elemPos digest m k x) s) later) = true) := by
  constructor
  · intro s later
    exact plainRun_preserves digest m k _ later _ (bfExists_bfAdd_self _ s)
  · intro s later hns
    exact countingRun_preserves digest m k _ later _ hns (cbfExists_cbfAdd_self _ s)

/-- Witness for C1 at digest `exD2`, `(m, k) = (4, 2)`, element 0, empty
start state, with a later rejected `Remove(1)` intervening. -/
theorem no_false_negatives_witness :
    noSuccRemove exD2 4 2 (cbfAdd (elemPos exD2 4 2 0) emptyC) [COp.remove 1] = true ∧
    cbfExists (elemPos exD2 4 2 0)
      (countingRun exD2 4 2 (cbfAdd (elemPos exD2 4 2 0) emptyC) [COp.remove 1]) = true :=
  ⟨by decide, (no_false_negatives exD2 4 2 0).2 emptyC [COp.remove 1] (by decide)⟩

/-- Claim C4: if any of `x`'s position counters is zero, `Remove(x)` fails
with `UnderflowError` and the filter state is completely unchanged — no
position counter and not the total is decremented; if all are positive,
`Remove(x)` decrements each position counter by exactly 1, leaves every
other counter unchanged, and decrements the total by exactly 1. -/
theorem remove_underflow_spec {α : Type} (digest : α → ℕ × ℕ) (m k : ℕ) (x : α)
    (s : CState) :
    ((∃ p ∈ elemPos digest m k x, s.counters p = 0) →
      cbfRemove (elemPos digest m k x) s = .error .underflowError ∧
      countingStep digest m k (.remove x) s = s) ∧
    ((∀ p ∈ elemPos digest m k x, 0 < s.counters p) →
      ∃ s2, cbfRemove (elemPos digest m k x) s = .ok s2 ∧
        (∀ p ∈ elemPos digest m k x, s2.counters p + 1 = s.counters p) ∧
        (∀ q, q ∉ elemPos digest m k x → s2.counters q = s.counters q) ∧
        s2.total = s.total - 1) := by
  constructor
  · rintro ⟨p, hp, hzero⟩
    have hfalse : ¬ cbfExists (elemPos digest m k x) s = true := by
      simp only [cbfExists, List.all_eq_true, decide_eq_true_eq, not_forall]
      exact ⟨p, hp, by omega⟩
    have herr : cbfRemove (elemPos digest m k x) s = .error .underflowError := by
      unfold cbfRemove
      rw [if_neg hfalse]
    exact ⟨herr, by simp [countingStep, herr]⟩
  · intro hpos
    have htrue : cbfExists (elemPos digest m k x) s = true := by
      simp only [cbfExists, List.all_eq_true, decide_eq_true_eq]
      exact hpos
    refine ⟨_, by unfold cbfRemove; rw [if_pos htrue], ?_, ?_, rfl⟩
    · intro p hp
      have := hpos p hp
      simp only [if_pos hp]
      omega
    · intro q hq
      simp only [if_neg hq]

/-- Witness for C4: under digest `exD2`, both branches at concrete states —
the empty state (all counters zero, Remove rejected) and the state right
after `Add(0)` (all of 0's counters positive, Remove succeeds). -/
theorem remove_underflow_spec_witness :
    ((∃ p ∈ elemPos exD2 4 2 0, emptyC.counters p = 0) ∧
      cbfRemove (elemPos exD2 4 2 0) emptyC = .error .underflowError ∧
      countingStep exD2 4 2 (.remove 0) emptyC = emptyC) ∧
    ((∀ p ∈ elemPos exD2 4 2 0, 0 < (cbfAdd (elemPos exD2 4 2 0) emptyC).counters p) ∧
      ∃ s2, cbfRemove (elemPos exD2 4 2 0) (cbfAdd (elemPos exD2 4 2 0) emptyC) = .ok s2 ∧
        (∀ p ∈ elemPos exD2 4 2 0,
          s2.counters p + 1 = (cbfAdd (elemPos exD2 4 2 0) emptyC).counters p) ∧
        (∀ q, q ∉ elemPos exD2 4 2 0 →
          s2.counters q = (cbfAdd (elemPos exD2 4 2 0) emptyC).counters q) ∧
        s2.total = (cbfAdd (elemPos exD2 4 2 0) emptyC).total - 1) :=
  ⟨⟨by decide, (remove_underflow_spec exD2 4 2 0 emptyC).1 (by decide)⟩,
   ⟨by decide,
    (remove_underflow_spec exD2 4 2 0 (cbfAdd (elemPos exD2 4 2 0) emptyC)).2 (by decide)⟩⟩

theorem countingRun_adds_total {α : Type} (digest : α → ℕ × ℕ) (m k : ℕ) (xs : List α)
    (s : CState) :
    (countingRun digest m k s (xs.map COp.add)).total = s.total + xs.length := by
  induction xs generalizing s with
  | nil => simp [countingRun]
  | cons y ys ih =>
    simp only [List.map_cons, countingRun, countingStep]
    rw [ih]
    simp only [cbfAdd, List.length_cons]
    push_cast
    ring

theorem countingRun_adds_preserves {α : Type} (digest : α → ℕ × ℕ) (m k : ℕ) (ps : List ℕ)
    (xs : List α) (s : CState) (hs : cbfExists ps s = true) :
    cbfExists ps (countingRun digest m k s (xs.map COp.add)) = true := by
  induction xs generalizing s with
  | nil => exact hs
  | cons y ys ih =>
    simp only [List.map_cons, countingRun, countingStep]
    exact ih _ (cbfExists_mono ps s _ (cbfAdd_counters_le _ s) hs)

theorem countingRun_adds_exists {α : Type} (digest : α → ℕ × ℕ) (m k : ℕ) (xs : List α)
    (s : CState) (x : α) (hx : x ∈ xs) :
    cbfExists (elemPos digest m k x) (countingRun digest m k s (xs.map COp.add)) = true := by
  induction xs generalizing s with
  | nil => cases hx
  | cons y ys ih =>
    simp only [List.map_cons, countingRun, countingStep]
    rcases List.mem_cons.mp hx with rfl | hmem
    · exact countingRun_adds_preserves digest m k _ ys _ (cbfExists_cbfAdd_self _ s)
    · exact ih _ hmem

/-- Claim C9: under the spec's atomicity model (§5: every multi-position
operation is one atomic batch, so any concurrent execution is equivalent to
some serialization), N Add calls for N elements in any serialization order
all take effect from the empty filter: `Count` returns N and `Exists` is
true for every added element — no update lost, and no partial
multi-position state is ever observable because each step is indivisible. -/
theorem concurrent_adds {α : Type} (digest : α → ℕ × ℕ) (m k : ℕ) (xs : List α) :
    cbfCount (countingRun digest m k emptyC (xs.map COp.add)) = xs.length ∧
    (∀ x ∈ xs, cbfExists (elemPos digest m k x)
        (countingRun digest m k emptyC (xs.map COp.add)) = true) := by
  constructor
  · have := countingRun_adds_total digest m k xs emptyC
    simpa [cbfCount, emptyC] using this
  · intro x hx
    exact countingRun_adds_exists digest m k xs emptyC x hx

/-- Witness for C9 at digest `exD2`, `(m, k) = (4, 2)`, and the two-element
serialization `[0, 1]`. -/
theorem concurrent_adds_witness :
    (0 : ℕ) ∈ [0, 1] ∧
    cbfExists (elemPos exD2 4 2 0)
      (countingRun exD2 4 2 emptyC ([0, 1].map COp.add)) = true :=
  ⟨by decide, (concurrent_adds exD2 4 2 [0, 1]).2 0 (by decide)⟩

theorem cbfAdd_counters_mem (ps : List ℕ) (s : CState) (q : ℕ) (hq : q ∈ ps) :
    (cbfAdd ps s).counters q = s.counters q + 1 := by
  simp [cbfAdd, if_pos hq]

theorem cbfAdd_counters_notmem (ps : List ℕ) (s : CState) (q : ℕ) (hq : q ∉ ps) :
    (cbfAdd ps s).counters q = s.counters q := by
  simp [cbfAdd, if_neg hq]

theorem cbfAdd_counters_pos (ps : List ℕ) (s : CState) (p : ℕ) (hp : p ∈ ps) :
    0 < (cbfAdd ps s).counters p := by
  rw [cbfAdd_counters_mem ps s p hp]
  omega

theorem cbfRemove_ok_char (ps : List ℕ) (s : CState)
    (hpos : ∀ p ∈ ps, 0 < s.counters p) :
    ∃ s2, cbfRemove ps s = .ok s2 ∧
      (∀ p ∈ ps, s2.counters p + 1 = s.counters p) ∧
      (∀ q, q ∉ ps → s2.counters q = s.counters q) ∧
      s2.total = s.total - 1 := by
  have htrue : cbfExists ps s = true := by
    simp only [cbfExists, List.all_eq_true, decide_eq_true_eq]
    exact hpos
  refine ⟨_, by unfold cbfRemove; rw [if_pos htrue], ?_, ?_, rfl⟩
  · intro p hp
    have := hpos p hp
    simp only [if_pos hp]
    omega
  · intro q hq
    simp only [if_neg hq]

theorem cbfRemove_ok_total (ps : List ℕ) (s s2 : CState)
    (h : cbfRemove ps s = .ok s2) : s2.total = s.total - 1 := by
  unfold cbfRemove at h
  split at h
  · injection h with h2
    subst h2
    rfl
  · cases h

theorem countingRun_total {α : Type} (digest : α → ℕ × ℕ) (m k : ℕ) (ops : List (COp α))
    (s : CState) :
    (countingRun digest m k s ops).total =
      s.total + numAdds ops - numSuccRemoves digest m k s ops := by
  induction ops generalizing s with
  | nil => simp [countingRun, numAdds, numSuccRemoves]
  | cons op ops ih =>
    cases op with
    | add x =>
      simp only [countingRun, countingStep, numAdds, numSuccRemoves]
      rw [ih]
      simp only [cbfAdd]
      push_cast
      ring
    | remove x =>
      cases hrem : cbfRemove (elemPos digest m k x) s with
      | ok s2 =>
        have hstep : countingStep digest m k (.remove x) s = s2 := by
          simp [countingStep, hrem]
        have htot := cbfRemove_ok_total _ _ _ hrem
        simp only [countingRun, numAdds, numSuccRemoves, hstep, hrem]
        rw [ih, htot]
        push_cast
        ring
      | error e =>
        have hstep := countingStep_remove_of_err digest m k x s e hrem
        simp only [countingRun, numAdds, numSuccRemoves, hstep, hrem]
        rw [ih]
        push_cast
        ring

/-- Claim C3: the literal counting scenario — from a fresh counting filter,
`Add(hello)` then `Add(world)` give `Count() = 2`; a subsequent
`Remove(hello)` succeeds, after which `Exists(hello)` is false and
`Count() = 1` (the falseness needs `world` not to cover all of `hello`'s
positions, which the unspecified hash family is assumed to give for these
two strings); and in general `Count` returns the aggregate total: the
number of (always-succeeding) Add operations minus the number of
successful Remove operations, so two Adds of one element add 2. -/
theorem count_semantics {α : Type} (digest : α → ℕ × ℕ) (m k : ℕ) (hello world : α)
    (hcov : ∃ p ∈ elemPos digest m k hello, p ∉ elemPos digest m k world) :
    cbfCount (cbfAdd (elemPos digest m k world)
        (cbfAdd (elemPos digest m k hello) emptyC)) = 2 ∧
    (∃ s3, cbfRemove (elemPos digest m k hello)
          (cbfAdd (elemPos digest m k world) (cbfAdd (elemPos digest m k hello) emptyC)) =
        .ok s3 ∧
      cbfExists (elemPos digest m k hello) s3 = false ∧
      cbfCount s3 = 1) ∧
    (∀ (s : CState) (x : α),
      cbfCount (cbfAdd (elemPos digest m k x) (cbfAdd (elemPos digest m k x) s)) =
        cbfCount s + 2) ∧
    (∀ (s : CState) (ops : List (COp α)),
      cbfCount (countingRun digest m k s ops) =
        cbfCount s + numAdds ops - numSuccRemoves digest m k s ops) := by
  obtain ⟨p0, hp0, hnp0⟩ := hcov
  have htot2 : (cbfAdd (elemPos digest m k world)
      (cbfAdd (elemPos digest m k hello) emptyC)).total = 2 := by
    simp [cbfAdd, emptyC]
  refine ⟨by simpa [cbfCount] using htot2, ?_, ?_, ?_⟩
  · have hpos : ∀ p ∈ elemPos digest m k hello,
        0 < (cbfAdd (elemPos digest m k world)
          (cbfAdd (elemPos digest m k hello) emptyC)).counters p := by
      intro p hp
      exact lt_of_lt_of_le (cbfAdd_counters_pos _ emptyC p hp) (cbfAdd_counters_le _ _ p)
    obtain ⟨s3, hrem, hmem, hnot, htot⟩ := cbfRemove_ok_char _ _ hpos
    refine ⟨s3, hrem, ?_, ?_⟩
    · rw [Bool.eq_false_iff]
      simp only [ne_eq, cbfExists, List.all_eq_true, decide_eq_true_eq, not_forall]
      refine ⟨p0, hp0, ?_⟩
      have h1 : (cbfAdd (elemPos digest m k world)
          (cbfAdd (elemPos digest m k hello) emptyC)).counters p0 = 1 := by
        rw [cbfAdd_counters_notmem _ _ _ hnp0, cbfAdd_counters_mem _ _ _ hp0]
        simp [emptyC]
      have h0 := hmem p0 hp0
      omega
    · simp only [cbfCount, htot, htot2]
      norm_num
  · intro s x
    simp [cbfCount, cbfAdd]
    ring
  · intro s ops
    exact countingRun_total digest m k ops s

/-- Witness for C3: digest `exD2` with `(m, k) = (4, 2)`, hello = 0
(positions `[0, 1]`), world = 1 (positions `[2, 3]`). -/
theorem count_semantics_witness :
    (∃ p ∈ elemPos exD2 4 2 0, p ∉ elemPos exD2 4 2 1) ∧
    (cbfCount (cbfAdd (elemPos exD2 4 2 1) (cbfAdd (elemPos exD2 4 2 0) emptyC)) = 2 ∧
     (∃ s3, cbfRemove (elemPos exD2 4 2 0)
           (cbfAdd (elemPos exD2 4 2 1) (cbfAdd (elemPos exD2 4 2 0) emptyC)) = .ok s3 ∧
       cbfExists (elemPos exD2 4 2 0) s3 = false ∧
       cbfCount s3 = 1) ∧
     (∀ (s : CState) (x : ℕ),
       cbfCount (cbfAdd (elemPos exD2 4 2 x) (cbfAdd (elemPos exD2 4 2 x) s)) =
         cbfCount s + 2) ∧
     (∀ (s : CState) (ops : List (COp ℕ)),
       cbfCount (countingRun exD2 4 2 s ops) =
         cbfCount s + numAdds ops - numSuccRemoves exD2 4 2 s ops)) :=
  ⟨by decide, count_semantics exD2 4 2 0 1 (by decide)⟩

theorem planner_ok (n : ℤ) (p : ℝ) (hn : 0 < n) (hp0 : 0 < p) (hp1 : p < 1) :
    planner n p = .ok (plannedM n p, plannedK n p) := by
  unfold planner
  rw [if_neg]
  push_neg
  exact ⟨hn, hp0, hp1⟩

theorem planner_err_iff (n : ℤ) (p : ℝ) :
    planner n p = .error .configError ↔ (n ≤ 0 ∨ p ≤ 0 ∨ 1 ≤ p) := by
  unfold planner
  by_cases h : n ≤ 0 ∨ p ≤ 0 ∨ 1 ≤ p
  · rw [if_pos h]
    simpa using h
  · rw [if_neg h]
    simp [h]

/-- Claim C5: the Parameter Planner returns `m = ceil(-n*ln(p)/(ln 2)^2)`
and `k = max(1, round((m/n)*ln 2))` whenever `n > 0` and `0 < p < 1`,
fails with `ConfigError` exactly when `n ≤ 0` or `p` is outside the open
interval `(0,1)`, and is pure and deterministic: equal inputs give equal
outputs. -/
theorem planner_spec (n : ℤ) (p : ℝ) :
    (0 < n ∧ 0 < p ∧ p < 1 →
      planner n p = .ok (plannedM n p, plannedK n p) ∧
      plannedM n p = ⌈(-(n : ℝ) * Real.log p) / (Real.log 2) ^ 2⌉ ∧
      plannedK n p = max 1 (round (((plannedM n p : ℤ) : ℝ) / (n : ℝ) * Real.log 2))) ∧
    (planner n p = .error .configError ↔ (n ≤ 0 ∨ p ≤ 0 ∨ 1 ≤ p)) ∧
    (∀ n2 p2, n2 = n → p2 = p → planner n2 p2 = planner n p) := by
  refine ⟨?_, planner_err_iff n p, ?_⟩
  · rintro ⟨hn, hp0, hp1⟩
    exact ⟨planner_ok n p hn hp0 hp1, rfl, rfl⟩
  · intro n2 p2 e1 e2
    rw [e1, e2]

/-- Witness for C5 at `n = 1`, `p = 1/2`. -/
theorem planner_spec_witness :
    (0 < (1 : ℤ) ∧ 0 < (1 / 2 : ℝ) ∧ (1 / 2 : ℝ) < 1) ∧
    planner 1 (1 / 2) = .ok (plannedM 1 (1 / 2), plannedK 1 (1 / 2)) :=
  ⟨⟨Int.one_pos, one_half_pos, one_half_lt_one⟩,
   ((planner_spec 1 (1 / 2)).1 ⟨Int.one_pos, one_half_pos, one_half_lt_one⟩).1⟩

/-- Claim C8: opening a name whose persisted sizing differs from the sizing
freshly derived from the caller's `(n, p)` fails with `ConsistencyError`
and aborts construction — it never proceeds with either sizing. -/
theorem consistency_guard (stored derived : ℤ × ℤ) (n : ℤ) (p : ℝ)
    (hplan : planner n p = .ok derived) (hne : stored ≠ derived) :
    newFilter (some stored) n p = .error .consistencyError ∧
    (∀ mk2, newFilter (some stored) n p ≠ .ok mk2) := by
  have herr : newFilter (some stored) n p = .error .consistencyError := by
    unfold newFilter
    rw [hplan]
    simp [hne]
  exact ⟨herr, fun mk2 hok => by rw [herr] at hok; cases hok⟩

/-- Witness for C8 at `n = 1`, `p = 1/2`, with a persisted sizing whose bit
count is off by one from the derived sizing. -/
theorem consistency_guard_witness :
    planner 1 (1 / 2) = .ok (plannedM 1 (1 / 2), plannedK 1 (1 / 2)) ∧
    ((plannedM 1 (1 / 2) + 1, plannedK 1 (1 / 2)) : ℤ × ℤ) ≠
      (plannedM 1 (1 / 2), plannedK 1 (1 / 2)) ∧
    newFilter (some (plannedM 1 (1 / 2) + 1, plannedK 1 (1 / 2))) 1 (1 / 2) =
      .error .consistencyError :=
  ⟨planner_ok 1 (1 / 2) Int.one_pos one_half_pos one_half_lt_one,
   by simp,
   (consistency_guard (plannedM 1 (1 / 2) + 1, plannedK 1 (1 / 2))
      (plannedM 1 (1 / 2), plannedK 1 (1 / 2)) 1 (1 / 2)
      (planner_ok 1 (1 / 2) Int.one_pos one_half_pos one_half_lt_one) (by simp)).1⟩

theorem keyVerdict_matched_iff (actualKVs : List (String × String)) (ek ev : String) :
    keyVerdict actualKVs ek ev = .matched ↔
      (lookupKV actualKVs ek = some ev ∧
       ev ≠ NilValueString ∧ ev ≠ ErrorValueString) := by
  unfold keyVerdict
  cases h : lookupKV actualKVs ek with
  | none => simp
  | some av =>
    dsimp only
    by_cases h1 : av = NilValueString
    · subst h1
      simp only [if_pos rfl]
      constructor
      · intro hv
        cases hv
      · rintro ⟨hsome, hnil, _⟩
        injection hsome with hev
        exact absurd hev.symm hnil
    · rw [if_neg h1]
      by_cases h2 : av = ErrorValueString
      · subst h2
        simp only [if_pos rfl]
        constructor
        · intro hv
          cases hv
        · rintro ⟨hsome, _, herr⟩
          injection hsome with hev
          exact absurd hev.symm herr
      · rw [if_neg h2]
        by_cases h3 : av = ev
        · subst h3
          simp [h1, h2]
        · rw [if_pos h3]
          constructor
          · intro hv
            cases hv
          · rintro ⟨hsome, _, _⟩
            injection hsome with hev
            exact absurd hev h3

theorem keyVerdict_all_good_iff (v : KeyVerdict) :
    (¬(v = .nilValue ∨ v = .mismatch) ∧ v ≠ .missingKey ∧ v ≠ .nilValue ∧
      v ≠ .errorValue) ↔ v = .matched := by
  cases v <;> simp

/-- Claim C10: `verifyData(expectedKVs, actualKVs, cycleNum)` returns
normally (printing VERIFY PASS) iff every expected key is present in the
fetched map with exactly its expected value — in particular not the
`"(nil)"` or `"<error_val>"` markers — and the fetched map holds no key
outside the expected set; in every other case it exits with status 1
(modelled as the function returning `false`). -/
theorem verifyData_spec (expectedKVs actualKVs : List (String × String)) :
    verifyData expectedKVs actualKVs = true ↔
      ((∀ kv ∈ expectedKVs,
          lookupKV actualKVs kv.1 = some kv.2 ∧
          kv.2 ≠ NilValueString ∧ kv.2 ≠ ErrorValueString) ∧
       (∀ kv ∈ actualKVs, (lookupKV expectedKVs kv.1).isSome = true)) := by
  unfold verifyData mismatches missingInActual nilInsteadOfValue errorRetrievingValue
    extraInActual
  simp only [Bool.and_eq_true, beq_iff_eq, List.countP_eq_zero, decide_eq_true_eq]
  constructor
  · rintro ⟨⟨⟨⟨hmis, hmiss⟩, hnil⟩, herr⟩, hextra⟩
    refine ⟨?_, ?_⟩
    · intro kv hkv
      exact (keyVerdict_matched_iff actualKVs kv.1 kv.2).mp
        ((keyVerdict_all_good_iff _).mp
          ⟨hmis kv hkv, hmiss kv hkv, hnil kv hkv, herr kv hkv⟩)
    · intro kv hkv
      rw [Option.isSome_iff_ne_none]
      exact hextra kv hkv
  · rintro ⟨hgood, hkeys⟩
    have hmatched : ∀ kv ∈ expectedKVs, keyVerdict actualKVs kv.1 kv.2 = .matched :=
      fun kv hkv => (keyVerdict_matched_iff actualKVs kv.1 kv.2).mpr (hgood kv hkv)
    refine ⟨⟨⟨⟨?_, ?_⟩, ?_⟩, ?_⟩, ?_⟩
    · exact fun kv hkv => ((keyVerdict_all_good_iff _).mpr (hmatched kv hkv)).1
    · exact fun kv hkv => ((keyVerdict_all_good_iff _).mpr (hmatched kv hkv)).2.1
    · exact fun kv hkv => ((keyVerdict_all_good_iff _).mpr (hmatched kv hkv)).2.2.1
    · exact fun kv hkv => ((keyVerdict_all_good_iff _).mpr (hmatched kv hkv)).2.2.2
    · intro kv hkv
      have := hkeys kv hkv
      rw [Option.isSome_iff_ne_none] at this
      exact this

/-- Witness for C10: a passing instance and the direction of the
equivalence applied to it. -/
theorem verifyData_spec_witness :
    verifyData [("key1", "val1")] [("key1", "val1")] = true :=
  (verifyData_spec [("key1", "val1")] [("key1", "val1")]).mpr (by decide)
